import Mathlib

/-!
Verification of the mini quant pipeline (src/src/main.rs).

The strategy loop of `main` (src/src/main.rs:130-188) is a sequential
reducer over the incoming trade events.  We embed it shallowly: decimal
values (Rust `f64` holding exact decimal inputs) are modelled as exact
rationals `ℚ`, machine counters (`u64`) as `ℕ`, the wall clock read at
each loop iteration is passed in as an explicit `ℕ` per event, and the
hdrhistogram of latency samples is modelled as the list of recorded
samples (only its contents and count matter here).
-/

/-- Trade event as deserialized in `main.rs` (struct `AggTrade`,
src/src/main.rs:59-71).  The Rust fields `p` and `q` are strings that the
strategy loop parses with `parse().unwrap_or(0.0)` (lines 131-132); we
model the parse result as `Option ℚ`, `none` standing for a string that
fails to parse. -/
structure AggTrade where
  e : String
  E : ℕ
  s : String
  a : ℕ
  p : Option ℚ
  q : Option ℚ
  T : ℕ
  m : Bool
deriving DecidableEq, Repr

/-- Configuration arguments relevant to the strategy loop
(struct `Args`, src/src/main.rs:41-57). -/
structure Args where
  ma_window : ℕ
  threshold_bps : ℕ
deriving DecidableEq, Repr

/-- Metrics state (struct `Metrics`, src/src/main.rs:15-23).  The
latency histogram is modelled as the list of recorded samples. -/
structure Metrics where
  trades : ℕ
  decisions : ℕ
  fills : ℕ
  pnl : ℚ
  last_price : ℚ
  lat_hist : List ℕ
deriving DecidableEq, Repr

/-- `Metrics::default` (src/src/main.rs:25-36). -/
def Metrics.init : Metrics :=
  { trades := 0, decisions := 0, fills := 0, pnl := 0, last_price := 0,
    lat_hist := [] }

/-- Decision side, the `Some("BUY") / Some("SELL")` strings of
src/src/main.rs:152-157. -/
inductive Side where
  | buy
  | sell
deriving DecidableEq, Repr

/-- Mutable state of the strategy loop (src/src/main.rs:126-128
together with the process-wide metrics). -/
structure StratState where
  prices : List ℚ
  pos_qty : ℚ
  cash : ℚ
  metrics : Metrics
deriving DecidableEq, Repr

/-- Initial state of the loop: empty window, flat position, zero cash
(src/src/main.rs:126-128), default metrics (line 13). -/
def initState : StratState :=
  { prices := [], pos_qty := 0, cash := 0, metrics := Metrics.init }

/-- The window update of src/src/main.rs:133-136:
`prices.push(price); if prices.len() > ma_window { prices.remove(0); }`
(`remove(0)` drops the oldest element, i.e. takes the tail). -/
def pushWin (n : ℕ) (w : List ℚ) (price : ℚ) : List ℚ :=
  let w1 := w ++ [price]
  if n < w1.length then w1.tail else w1

/-- The decision rule of src/src/main.rs:152-157: Buy when flat
(`pos_qty <= 0.0`) and the price is strictly above the upper band, Sell
when long (`pos_qty > 0.0`) and strictly below the lower band. -/
def decision (pos_qty price up dn : ℚ) : Option Side :=
  if pos_qty ≤ 0 ∧ up < price then some Side.buy
  else if 0 < pos_qty ∧ price < dn then some Side.sell
  else none

/-- The paper fill of src/src/main.rs:169-179 on the pair
(pos_qty, cash).  BUY: `pos_qty = 1.0; cash -= price * pos_qty;`
SELL: `cash += price * pos_qty; pos_qty = 0.0;` (the SELL credit uses
the pre-fill quantity). -/
def applyFill (side : Side) (price : ℚ) (pc : ℚ × ℚ) : ℚ × ℚ :=
  match side with
  | Side.buy => (1, pc.2 - price * 1)
  | Side.sell => (0, pc.2 + price * pc.1)

/-- Equity as computed at src/src/main.rs:180:
`let equity = cash + pos_qty * price;`. -/
def equity (pos_qty cash price : ℚ) : ℚ :=
  cash + pos_qty * price

/-- The moving average of src/src/main.rs:148:
`prices.iter().sum::<f64>() / prices.len() as f64`. -/
def maOf (prices : List ℚ) : ℚ :=
  prices.sum / (prices.length : ℚ)

/-- The upper band of src/src/main.rs:149:
`ma * (1.0 + args.threshold_bps as f64 / 10000.0)`. -/
def upBand (threshold_bps : ℕ) (ma : ℚ) : ℚ :=
  ma * (1 + (threshold_bps : ℚ) / 10000)

/-- The lower band of src/src/main.rs:150:
`ma * (1.0 - args.threshold_bps as f64 / 10000.0)`. -/
def dnBand (threshold_bps : ℕ) (ma : ℚ) : ℚ :=
  ma * (1 - (threshold_bps : ℚ) / 10000)

/-- One iteration of the strategy loop body (src/src/main.rs:130-188)
on state `s`, reading wall-clock `now` (milliseconds, line 161) and the
received event `tr`.  Returns the successor state together with the
decision produced (`none` when no signal fires).  Steps, in source
order: parse the price with fallback 0.0 (line 131), push into the
window with eviction (133-136), bump the trade counter and last-price
gauge (138-143), stop if the window is not yet full (145-147), compute
the moving average and the hysteresis band (148-150), decide (152-157),
and on a decision record the saturating latency `now - tr.T` (161-167),
apply the fill (169-179), and publish fills and pnl = equity (180-185). -/
def stepFull (args : Args) (s : StratState) (now : ℕ) (tr : AggTrade) :
    StratState × Option Side :=
  let price : ℚ := tr.p.getD 0
  let prices : List ℚ := pushWin args.ma_window s.prices price
  let m1 : Metrics :=
    { s.metrics with trades := s.metrics.trades + 1, last_price := price }
  if prices.length < args.ma_window then
    ({ s with prices := prices, metrics := m1 }, none)
  else
    let ma : ℚ := maOf prices
    let up : ℚ := upBand args.threshold_bps ma
    let dn : ℚ := dnBand args.threshold_bps ma
    match decision s.pos_qty price up dn with
    | none => ({ s with prices := prices, metrics := m1 }, none)
    | some side =>
      let latency : ℕ := now - tr.T
      let m2 : Metrics :=
        { m1 with decisions := m1.decisions + 1,
                  lat_hist := m1.lat_hist ++ [latency] }
      let pc : ℚ × ℚ := applyFill side price (s.pos_qty, s.cash)
      let eq : ℚ := equity pc.1 pc.2 price
      let m3 : Metrics := { m2 with fills := m2.fills + 1, pnl := eq }
      ({ prices := prices, pos_qty := pc.1, cash := pc.2, metrics := m3 },
       some side)

/-- Run the strategy loop over a list of events, each paired with the
wall-clock value read while processing it; returns the final state and
the list of decisions, in order. -/
def runAux (args : Args) (s : StratState) :
    List (ℕ × AggTrade) → StratState × List (Option Side)
  | [] => (s, [])
  | ev :: rest =>
    let r1 := stepFull args s ev.1 ev.2
    let r2 := runAux args r1.1 rest
    (r2.1, r1.2 :: r2.2)

/-- Final state of the strategy loop over an event list. -/
def runState (args : Args) (s : StratState) (evs : List (ℕ × AggTrade)) :
    StratState :=
  (runAux args s evs).1

/-- Decisions produced along a run, one entry per event. -/
def signals (args : Args) (s : StratState) (evs : List (ℕ × AggTrade)) :
    List (Option Side) :=
  (runAux args s evs).2

/-- The bounded event queue of src/src/main.rs:90
(`mpsc::channel::<AggTrade>(4096)`) together with the non-blocking send
of line 109 (`let _ = tx.try_send(t);`): with no consumer draining, a
send onto a queue holding fewer than `cap` events appends the event;
onto a full queue it is rejected and the event is silently dropped. -/
def trySend (cap : ℕ) (q : List AggTrade) (tr : AggTrade) : List AggTrade :=
  if q.length < cap then q ++ [tr] else q

/-- A concrete trade event at a given parsed price, used for witnesses. -/
def mkTrade (p : Option ℚ) : AggTrade :=
  { e := "aggTrade", E := 0, s := "btcusdt", a := 0, p := p, q := some 1,
    T := 0, m := false }

/-- The quiet successor state: window pushed, trade counter bumped,
last-price gauge set, everything else untouched
(src/src/main.rs:133-147). -/
def quietSucc (args : Args) (s : StratState) (tr : AggTrade) : StratState :=
  { s with
      prices := pushWin args.ma_window s.prices (tr.p.getD 0),
      metrics := { s.metrics with
        trades := s.metrics.trades + 1,
        last_price := tr.p.getD 0 } }

/-- The successor state when a decision `side` fires
(src/src/main.rs:159-185). -/
def firedSucc (args : Args) (s : StratState) (now : ℕ) (tr : AggTrade)
    (side : Side) : StratState :=
  { prices := pushWin args.ma_window s.prices (tr.p.getD 0),
    pos_qty := (applyFill side (tr.p.getD 0) (s.pos_qty, s.cash)).1,
    cash := (applyFill side (tr.p.getD 0) (s.pos_qty, s.cash)).2,
    metrics := { trades := s.metrics.trades + 1,
                 decisions := s.metrics.decisions + 1,
                 fills := s.metrics.fills + 1,
                 pnl := equity (applyFill side (tr.p.getD 0) (s.pos_qty, s.cash)).1
                          (applyFill side (tr.p.getD 0) (s.pos_qty, s.cash)).2
                          (tr.p.getD 0),
                 last_price := tr.p.getD 0,
                 lat_hist := s.metrics.lat_hist ++ [now - tr.T] } }

/-- Position state of the spec's two-state machine (§3 of the spec).
The code keeps no separate enum: being Long is exactly `pos_qty > 0.0`,
the guard distinguishing the two decision branches at
src/src/main.rs:153-155. -/
inductive PositionState where
  | flat
  | long
deriving DecidableEq, Repr

/-- The position state realized by a strategy state. -/
def posState (s : StratState) : PositionState :=
  if 0 < s.pos_qty then PositionState.long else PositionState.flat

/-- Configuration of the spec's deterministic-crossover scenario:
windowSize 50 (the default `ma_window`), thresholdBps 10 (the default
`threshold_bps`). -/
def argsC1 : Args := Args.mk 50 10

/-- The 50 events at price 100 of the deterministic-crossover
scenario. -/
def evsC1 : List (ℕ × AggTrade) :=
  List.replicate 50 ((0 : ℕ), mkTrade (some 100))

/-- The iteration on the 51st event, at price 101, of the
deterministic-crossover scenario. -/
def rC1buy : StratState × Option Side :=
  stepFull argsC1 (runState argsC1 initState evsC1) 0 (mkTrade (some 101))

/-- The iteration on the 52nd event, at price 98, of the
deterministic-crossover scenario. -/
def rC1sell : StratState × Option Side :=
  stepFull argsC1 rC1buy.1 0 (mkTrade (some 98))

section WindowLemmas

/-- One push keeps the window within capacity. -/
lemma pushWin_length_le (n : ℕ) (w : List ℚ) (p : ℚ) (h : w.length ≤ n) :
    (pushWin n w p).length ≤ n := by
  simp only [pushWin]
  split <;> rename_i hc <;>
    simp only [List.length_tail, List.length_append, List.length_singleton,
      not_lt] at hc ⊢ <;> omega

/-- One push, expressed as a drop over the appended list. -/
lemma pushWin_eq_drop (n : ℕ) (w : List ℚ) (p : ℚ) (h : w.length ≤ n) :
    pushWin n w p = (w ++ [p]).drop (w.length + 1 - n) := by
  simp only [pushWin]
  split
  · rename_i hlt
    simp only [List.length_append, List.length_singleton] at hlt
    have hw : w.length + 1 - n = 1 := by omega
    rw [hw, List.drop_one]
  · rename_i hge
    simp only [List.length_append, List.length_singleton, not_lt] at hge
    have h0 : w.length + 1 - n = 0 := by omega
    simp [h0]

/-- Folding pushes over a window within capacity keeps the last `n`
elements of everything seen so far. -/
lemma foldl_pushWin_eq_drop (n : ℕ) :
    ∀ (ps : List ℚ) (w : List ℚ), w.length ≤ n →
      List.foldl (pushWin n) w ps = (w ++ ps).drop (w.length + ps.length - n) := by
  intro ps
  induction ps with
  | nil =>
    intro w h
    simp [Nat.sub_eq_zero_of_le h]
  | cons p ps ih =>
    intro w h
    rw [List.foldl_cons, ih (pushWin n w p) (pushWin_length_le n w p h),
      pushWin_eq_drop n w p h]
    have hlen : ((w ++ [p]).drop (w.length + 1 - n)).length
        = w.length + 1 - (w.length + 1 - n) := by
      simp
    have hk : w.length + 1 - n ≤ (w ++ [p]).length := by
      simp only [List.length_append, List.length_singleton]
      omega
    rw [hlen, ← List.drop_append_of_le_length hk, List.drop_drop,
      List.append_assoc, List.singleton_append]
    congr 1
    simp only [List.length_cons]
    omega

end WindowLemmas

section StepLemmas

/-- Exhaustive description of one loop iteration: either no signal fires
and only the window, the trade counter and the last-price gauge change,
or a signal fires, the window must be full, the decision rule returned
that side, and the fill, the metrics and the pnl gauge are applied. -/
lemma stepFull_cases (args : Args) (s : StratState) (now : ℕ) (tr : AggTrade) :
    ((stepFull args s now tr).2 = none ∧
      (stepFull args s now tr).1 = quietSucc args s tr) ∨
    (∃ side, (stepFull args s now tr).2 = some side ∧
      decision s.pos_qty (tr.p.getD 0)
        (upBand args.threshold_bps
          (maOf (pushWin args.ma_window s.prices (tr.p.getD 0))))
        (dnBand args.threshold_bps
          (maOf (pushWin args.ma_window s.prices (tr.p.getD 0))))
        = some side ∧
      ¬ (pushWin args.ma_window s.prices (tr.p.getD 0)).length < args.ma_window ∧
      (stepFull args s now tr).1 = firedSucc args s now tr side) := by
  simp only [stepFull, quietSucc, firedSucc]
  split
  · exact Or.inl ⟨rfl, rfl⟩
  · rename_i hfull
    rcases hd : decision s.pos_qty (tr.p.getD 0)
        (upBand args.threshold_bps
          (maOf (pushWin args.ma_window s.prices (tr.p.getD 0))))
        (dnBand args.threshold_bps
          (maOf (pushWin args.ma_window s.prices (tr.p.getD 0)))) with
      _ | side
    · exact Or.inl ⟨rfl, rfl⟩
    · exact Or.inr ⟨side, rfl, rfl, hfull, rfl⟩

/-- The window update happens in every branch of the loop body. -/
lemma stepFull_prices (args : Args) (s : StratState) (now : ℕ) (tr : AggTrade) :
    (stepFull args s now tr).1.prices
      = pushWin args.ma_window s.prices (tr.p.getD 0) := by
  rcases stepFull_cases args s now tr with ⟨_, hs⟩ | ⟨side, _, _, _, hs⟩ <;>
    rw [hs] <;> rfl

/-- A push below capacity grows the window by one. -/
lemma pushWin_length_succ (n : ℕ) (w : List ℚ) (p : ℚ) (h : w.length + 1 ≤ n) :
    (pushWin n w p).length = w.length + 1 := by
  simp only [pushWin]
  split <;> rename_i hc
  · exfalso
    simp only [List.length_append, List.length_singleton] at hc
    omega
  · simp

/-- The trade counter is bumped in every branch of the loop body. -/
lemma stepFull_trades (args : Args) (s : StratState) (now : ℕ) (tr : AggTrade) :
    (stepFull args s now tr).1.metrics.trades = s.metrics.trades + 1 := by
  rcases stepFull_cases args s now tr with ⟨_, hs⟩ | ⟨side, _, _, _, hs⟩ <;>
    rw [hs] <;> rfl

/-- The last-price gauge is set in every branch of the loop body. -/
lemma stepFull_last_price (args : Args) (s : StratState) (now : ℕ) (tr : AggTrade) :
    (stepFull args s now tr).1.metrics.last_price = tr.p.getD 0 := by
  rcases stepFull_cases args s now tr with ⟨_, hs⟩ | ⟨side, _, _, _, hs⟩ <;>
    rw [hs] <;> rfl

end StepLemmas

section RunLemmas

/-- The run's window is the fold of the pushed (parsed) prices. -/
lemma runAux_prices (args : Args) :
    ∀ (evs : List (ℕ × AggTrade)) (s : StratState),
      (runAux args s evs).1.prices
        = List.foldl (pushWin args.ma_window) s.prices
            (evs.map (fun ev => ev.2.p.getD 0)) := by
  intro evs
  induction evs with
  | nil => intro s; rfl
  | cons ev evs ih =>
    intro s
    simp only [runAux, List.map_cons, List.foldl_cons]
    rw [ih, stepFull_prices]

/-- A run that never fills the window leaves the position, the cash and
the decision metrics untouched and produces no signal. -/
lemma runAux_quiet (args : Args) :
    ∀ (evs : List (ℕ × AggTrade)) (s : StratState),
      s.prices.length + evs.length < args.ma_window →
      ((runAux args s evs).1.pos_qty = s.pos_qty ∧
       (runAux args s evs).1.cash = s.cash ∧
       (runAux args s evs).1.metrics.decisions = s.metrics.decisions ∧
       (runAux args s evs).1.metrics.fills = s.metrics.fills ∧
       (runAux args s evs).1.metrics.lat_hist = s.metrics.lat_hist ∧
       ∀ g ∈ (runAux args s evs).2, g = none) := by
  intro evs
  induction evs with
  | nil =>
    intro s _
    exact ⟨rfl, rfl, rfl, rfl, rfl, by simp [runAux]⟩
  | cons ev evs ih =>
    intro s hlen
    have hpush : (pushWin args.ma_window s.prices (ev.2.p.getD 0)).length
        = s.prices.length + 1 := by
      apply pushWin_length_succ
      simp only [List.length_cons] at hlen
      omega
    rcases stepFull_cases args s ev.1 ev.2 with ⟨hg, hs⟩ | ⟨side, hg, _, hfull, _⟩
    · have hq : (stepFull args s ev.1 ev.2).1 = quietSucc args s ev.2 := hs
      have hlen2 : (quietSucc args s ev.2).prices.length + evs.length
          < args.ma_window := by
        simp only [quietSucc, hpush]
        simp only [List.length_cons] at hlen
        omega
      have := ih (quietSucc args s ev.2) hlen2
      simp only [runAux, hq, hg]
      refine ⟨this.1, this.2.1, this.2.2.1, this.2.2.2.1, this.2.2.2.2.1, ?_⟩
      intro g hgmem
      simp only [List.mem_cons] at hgmem
      rcases hgmem with h1 | h2
      · exact h1
      · exact this.2.2.2.2.2 g h2
    · exfalso
      apply hfull
      rw [hpush]
      simp only [List.length_cons] at hlen
      omega

/-- A Buy decision can only be returned from the flat guard
`pos_qty <= 0.0` (src/src/main.rs:153). -/
lemma decision_buy (pos price up dn : ℚ)
    (h : decision pos price up dn = some Side.buy) : pos ≤ 0 ∧ up < price := by
  simp only [decision] at h
  split_ifs at h with h1 h2
  · exact h1
  · simp at h

/-- A Sell decision can only be returned from the long guard
`pos_qty > 0.0` (src/src/main.rs:155). -/
lemma decision_sell (pos price up dn : ℚ)
    (h : decision pos price up dn = some Side.sell) : 0 < pos ∧ price < dn := by
  simp only [decision] at h
  split_ifs at h with h1 h2
  · simp at h
  · exact h2

/-- One iteration keeps the position quantity in {0, 1}. -/
lemma stepFull_pos_mem (args : Args) (s : StratState) (now : ℕ) (tr : AggTrade)
    (h : s.pos_qty = 0 ∨ s.pos_qty = 1) :
    (stepFull args s now tr).1.pos_qty = 0 ∨
    (stepFull args s now tr).1.pos_qty = 1 := by
  rcases stepFull_cases args s now tr with ⟨_, hs⟩ | ⟨side, _, _, _, hs⟩
  · rw [hs]
    exact h
  · rw [hs]
    cases side
    · right
      rfl
    · left
      rfl

/-- A Buy signal is only emitted when the current position is flat. -/
lemma stepFull_buy_flat (args : Args) (s : StratState) (now : ℕ) (tr : AggTrade)
    (h : (stepFull args s now tr).2 = some Side.buy) : s.pos_qty ≤ 0 := by
  rcases stepFull_cases args s now tr with ⟨hg, _⟩ | ⟨side, hg, hd, _, _⟩
  · rw [hg] at h
    simp at h
  · rw [hg] at h
    injection h with h
    subst h
    exact (decision_buy _ _ _ _ hd).1

/-- A Sell signal is only emitted when the current position is long. -/
lemma stepFull_sell_long (args : Args) (s : StratState) (now : ℕ) (tr : AggTrade)
    (h : (stepFull args s now tr).2 = some Side.sell) : 0 < s.pos_qty := by
  rcases stepFull_cases args s now tr with ⟨hg, _⟩ | ⟨side, hg, hd, _, _⟩
  · rw [hg] at h
    simp at h
  · rw [hg] at h
    injection h with h
    subst h
    exact (decision_sell _ _ _ _ hd).1

section RunLemmas

/-- A run keeps the position quantity in {0, 1}. -/
lemma runAux_pos_mem (args : Args) :
    ∀ (evs : List (ℕ × AggTrade)) (s : StratState),
      (s.pos_qty = 0 ∨ s.pos_qty = 1) →
      ((runAux args s evs).1.pos_qty = 0 ∨ (runAux args s evs).1.pos_qty = 1) := by
  intro evs
  induction evs with
  | nil => exact fun s h => h
  | cons ev evs ih =>
    intro s h
    simp only [runAux]
    exact ih _ (stepFull_pos_mem args s ev.1 ev.2 h)

/-- One iteration bumps decisions, fills and the latency sample count
together, by one exactly when a signal fired. -/
lemma stepFull_counts (args : Args) (s : StratState) (now : ℕ) (tr : AggTrade) :
    (stepFull args s now tr).1.metrics.decisions
      = s.metrics.decisions
        + (if (stepFull args s now tr).2.isSome then 1 else 0) ∧
    (stepFull args s now tr).1.metrics.fills
      = s.metrics.fills
        + (if (stepFull args s now tr).2.isSome then 1 else 0) ∧
    (stepFull args s now tr).1.metrics.lat_hist.length
      = s.metrics.lat_hist.length
        + (if (stepFull args s now tr).2.isSome then 1 else 0) := by
  rcases stepFull_cases args s now tr with ⟨hg, hs⟩ | ⟨side, hg, _, _, hs⟩ <;>
    rw [hs, hg] <;> simp [quietSucc, firedSucc]

/-- Metrics over a run: trades counts the events; decisions, fills and
latency samples all count the non-`none` signals. -/
lemma runAux_counts (args : Args) :
    ∀ (evs : List (ℕ × AggTrade)) (s : StratState),
      (runAux args s evs).1.metrics.trades = s.metrics.trades + evs.length ∧
      (runAux args s evs).1.metrics.decisions
        = s.metrics.decisions
          + (runAux args s evs).2.countP (fun g => g.isSome) ∧
      (runAux args s evs).1.metrics.fills
        = s.metrics.fills + (runAux args s evs).2.countP (fun g => g.isSome) ∧
      (runAux args s evs).1.metrics.lat_hist.length
        = s.metrics.lat_hist.length
          + (runAux args s evs).2.countP (fun g => g.isSome) := by
  intro evs
  induction evs with
  | nil =>
    intro s
    simp [runAux]
  | cons ev evs ih =>
    intro s
    have htr := stepFull_trades args s ev.1 ev.2
    have hc := stepFull_counts args s ev.1 ev.2
    have ihh := ih (stepFull args s ev.1 ev.2).1
    simp only [runAux, List.countP_cons, List.length_cons]
    refine ⟨?_, ?_, ?_, ?_⟩
    · rw [ihh.1, htr]
      omega
    · rw [ihh.2.1, hc.1]
      rcases (stepFull args s ev.1 ev.2).2 with _ | side
      · simp
      · simp
        omega
    · rw [ihh.2.2.1, hc.2.1]
      rcases (stepFull args s ev.1 ev.2).2 with _ | side
      · simp
      · simp
        omega
    · rw [ihh.2.2.2, hc.2.2]
      rcases (stepFull args s ev.1 ev.2).2 with _ | side
      · simp
      · simp
        omega

end RunLemmas

section ConstLemmas

/-- The mean of a nonempty constant window is its element. -/
lemma maOf_const (p : ℚ) (l : List ℚ) (hl : 0 < l.length)
    (h : ∀ x ∈ l, x = p) : maOf l = p := by
  unfold maOf
  rw [List.sum_eq_card_nsmul l p h, nsmul_eq_mul]
  have hne : (l.length : ℚ) ≠ 0 := by
    exact_mod_cast Nat.pos_iff_ne_zero.mp hl
  field_simp

/-- Pushing the same price keeps the window constant. -/
lemma pushWin_const (n : ℕ) (w : List ℚ) (p : ℚ) (h : ∀ x ∈ w, x = p) :
    ∀ x ∈ pushWin n w p, x = p := by
  intro x hx
  have hx2 : x ∈ w ++ [p] := by
    simp only [pushWin] at hx
    split at hx
    · exact List.mem_of_mem_tail hx
    · exact hx
  rcases List.mem_append.mp hx2 with hw | hp2
  · exact h x hw
  · simpa using hp2

/-- On a constant nonnegative price, one iteration from a flat state
stays flat, leaves cash alone, keeps the window constant, and fires no
signal: the price never strictly exceeds the upper band because the
mean equals the price and the band widens upward. -/
lemma step_const (args : Args) (hn : 1 ≤ args.ma_window) (p : ℚ) (hp : 0 ≤ p)
    (s : StratState) (now : ℕ) (tr : AggTrade) (htr : tr.p = some p)
    (hpos : s.pos_qty = 0) (hw : ∀ x ∈ s.prices, x = p) :
    (stepFull args s now tr).2 = none ∧
    (stepFull args s now tr).1.pos_qty = 0 ∧
    (stepFull args s now tr).1.cash = s.cash ∧
    (∀ x ∈ (stepFull args s now tr).1.prices, x = p) := by
  have hprice : tr.p.getD 0 = p := by rw [htr]; rfl
  have hwp : ∀ x ∈ pushWin args.ma_window s.prices (tr.p.getD 0), x = p := by
    rw [hprice]
    exact pushWin_const args.ma_window s.prices p hw
  rcases stepFull_cases args s now tr with ⟨hg, hs⟩ | ⟨side, hg, hd, hfull, hs⟩
  · refine ⟨hg, ?_, ?_, ?_⟩
    · rw [hs]; exact hpos
    · rw [hs]; rfl
    · rw [hs]
      simpa [quietSucc] using hwp
  · exfalso
    have hlen : 0 < (pushWin args.ma_window s.prices (tr.p.getD 0)).length := by
      omega
    have hma : maOf (pushWin args.ma_window s.prices (tr.p.getD 0)) = p :=
      maOf_const p _ hlen hwp
    cases side
    · have hbuy := decision_buy _ _ _ _ hd
      rw [hma, hprice] at hbuy
      have hub : p ≤ upBand args.threshold_bps p := by
        unfold upBand
        have h1 : 0 ≤ p * ((args.threshold_bps : ℚ) / 10000) := by
          apply mul_nonneg hp
          positivity
        nlinarith
      exact absurd hbuy.2 (not_lt.mpr hub)
    · have hsell := decision_sell _ _ _ _ hd
      rw [hpos] at hsell
      exact absurd hsell.1 (lt_irrefl 0)

/-- On a constant nonnegative price series, a run from a flat,
constant-window state fires nothing and moves nothing. -/
lemma run_const (args : Args) (hn : 1 ≤ args.ma_window) (p : ℚ) (hp : 0 ≤ p) :
    ∀ (evs : List (ℕ × AggTrade)) (s : StratState),
      (∀ ev ∈ evs, (ev : ℕ × AggTrade).2.p = some p) →
      s.pos_qty = 0 → (∀ x ∈ s.prices, x = p) →
      ((runAux args s evs).1.pos_qty = 0 ∧
       (runAux args s evs).1.cash = s.cash ∧
       (∀ x ∈ (runAux args s evs).1.prices, x = p) ∧
       ∀ g ∈ (runAux args s evs).2, g = none) := by
  intro evs
  induction evs with
  | nil =>
    intro s _ hpos hw
    exact ⟨hpos, rfl, hw, by simp [runAux]⟩
  | cons ev evs ih =>
    intro s hevs hpos hw
    have hstep := step_const args hn p hp s ev.1 ev.2
      (hevs ev (List.mem_cons_self ev evs)) hpos hw
    have ihh := ih (stepFull args s ev.1 ev.2).1
      (fun e he => hevs e (List.mem_cons_of_mem ev he))
      hstep.2.1 hstep.2.2.2
    simp only [runAux]
    refine ⟨ihh.1, ?_, ihh.2.2.1, ?_⟩
    · rw [ihh.2.1, hstep.2.2.1]
    · intro g hg
      simp only [List.mem_cons] at hg
      rcases hg with h1 | h2
      · rw [h1, hstep.1]
      · exact ihh.2.2.2 g h2

end ConstLemmas

set_option maxRecDepth 8000 in
/-- C1: deterministic crossover with windowSize 50 and thresholdBps 10
from the empty window, flat position and zero cash: the 50 events at
price 100 produce no signal; the next event at price 101 produces a Buy,
position Long, quantity 1, cash −101, equity (and pnl gauge) 0; the
following event at price 98 produces a Sell, position Flat, quantity 0,
cash −3, equity (and pnl gauge) −3. -/
theorem deterministic_crossover :
    (∀ g ∈ signals argsC1 initState evsC1, g = none) ∧
    rC1buy.2 = some Side.buy ∧
    posState rC1buy.1 = PositionState.long ∧
    rC1buy.1.pos_qty = 1 ∧
    rC1buy.1.cash = -101 ∧
    equity rC1buy.1.pos_qty rC1buy.1.cash 101 = 0 ∧
    rC1buy.1.metrics.pnl = 0 ∧
    rC1sell.2 = some Side.sell ∧
    posState rC1sell.1 = PositionState.flat ∧
    rC1sell.1.pos_qty = 0 ∧
    rC1sell.1.cash = -3 ∧
    equity rC1sell.1.pos_qty rC1sell.1.cash 98 = -3 ∧
    rC1sell.1.metrics.pnl = -3 := by
  norm_num [signals, runState, runAux, stepFull, pushWin, decision, initState,
    mkTrade, Metrics.init, maOf, upBand, dnBand, applyFill, equity, posState,
    argsC1, evsC1, rC1buy, rC1sell, List.replicate]

/-- C4 counterexample: a constant price series is not signal-free in
general.  Two events at the constant price −1, with window size 1 and
thresholdBps = 10, produce a Buy and then a Sell: for a negative price
the band is inverted (upper < price < lower), so the strict
inequalities fire on a flat series. -/
theorem hysteresis_cex :
    signals (Args.mk 1 10) initState
        [((0 : ℕ), mkTrade (some (-1))), ((0 : ℕ), mkTrade (some (-1)))]
      = [some Side.buy, some Side.sell] := by
  simp only [signals, runAux, stepFull, pushWin, decision, initState, mkTrade,
    Metrics.init, maOf, upBand, dnBand, applyFill, equity]
  norm_num

/-- C4 corrected: for every constant price series at a nonnegative
price `p` and every thresholdBps, the engine never produces a
non-`none` signal; and a price exactly equal to the upper band never
triggers the Flat→Long transition, nor a price exactly equal to the
lower band the Long→Flat transition, because the decision rule uses
strict inequalities. -/
theorem hysteresis_const_nonneg (args : Args) (hn : 1 ≤ args.ma_window)
    (p : ℚ) (hp : 0 ≤ p) (evs : List (ℕ × AggTrade))
    (hevs : ∀ ev ∈ evs, (ev : ℕ × AggTrade).2.p = some p) :
    (∀ g ∈ signals args initState evs, g = none) ∧
    (∀ pos up dn : ℚ, decision pos up up dn ≠ some Side.buy) ∧
    (∀ pos up dn : ℚ, decision pos dn up dn ≠ some Side.sell) := by
  refine ⟨?_, ?_, ?_⟩
  · exact (run_const args hn p hp evs initState hevs rfl
      (by intro x hx; simp [initState] at hx)).2.2.2
  · intro pos up dn hc
    exact absurd (decision_buy _ _ _ _ hc).2 (lt_irrefl up)
  · intro pos up dn hc
    exact absurd (decision_sell _ _ _ _ hc).2 (lt_irrefl dn)

/-- Witness for C4 corrected: one event at constant price 100 with
window size 1 and thresholdBps 10. -/
theorem hysteresis_const_nonneg_witness :
    1 ≤ (Args.mk 1 10).ma_window ∧ (0 : ℚ) ≤ 100 ∧
    (∀ ev ∈ [((0 : ℕ), mkTrade (some 100))],
      (ev : ℕ × AggTrade).2.p = some 100) ∧
    ((∀ g ∈ signals (Args.mk 1 10) initState [((0 : ℕ), mkTrade (some 100))],
        g = none) ∧
      (∀ pos up dn : ℚ, decision pos up up dn ≠ some Side.buy) ∧
      (∀ pos up dn : ℚ, decision pos dn up dn ≠ some Side.sell)) :=
  ⟨by decide, by decide, by simp [mkTrade],
    hysteresis_const_nonneg (Args.mk 1 10) (by decide) 100 (by decide) _
      (by simp [mkTrade])⟩

/-- C5: in every reachable state of the strategy loop the ledger
quantity is 0 or the fixed unit size 1; quantity is positive exactly
when the position state is Long; and from any reachable state the next
event either produces no signal, or a Buy signal applied at quantity 0,
or a Sell signal applied at quantity 1. -/
theorem ledger_state_machine (args : Args) (evs : List (ℕ × AggTrade))
    (now : ℕ) (tr : AggTrade) :
    ((runState args initState evs).pos_qty = 0 ∨
      (runState args initState evs).pos_qty = 1) ∧
    (0 < (runState args initState evs).pos_qty ↔
      posState (runState args initState evs) = PositionState.long) ∧
    ((stepFull args (runState args initState evs) now tr).2 = none ∨
      ((stepFull args (runState args initState evs) now tr).2 = some Side.buy ∧
        (runState args initState evs).pos_qty = 0) ∨
      ((stepFull args (runState args initState evs) now tr).2 = some Side.sell ∧
        (runState args initState evs).pos_qty = 1)) := by
  have hmem : (runState args initState evs).pos_qty = 0 ∨
      (runState args initState evs).pos_qty = 1 :=
    runAux_pos_mem args evs initState (Or.inl rfl)
  refine ⟨hmem, ?_, ?_⟩
  · unfold posState
    split <;> rename_i hlt
    · simp [hlt]
    · simp only [hlt, false_iff]
      intro hc
      exact PositionState.noConfusion hc
  · rcases h2 : (stepFull args (runState args initState evs) now tr).2 with _ | side
    · exact Or.inl rfl
    · cases side
      · refine Or.inr (Or.inl ⟨rfl, ?_⟩)
        have hle := stepFull_buy_flat args _ now tr h2
        rcases hmem with h0 | h1
        · exact h0
        · exfalso
          rw [h1] at hle
          norm_num at hle
      · refine Or.inr (Or.inr ⟨rfl, ?_⟩)
        have hlt := stepFull_sell_long args _ now tr h2
        rcases hmem with h0 | h1
        · exfalso
          rw [h0] at hlt
          norm_num at hlt
        · exact h1

/-- C7: after processing any finite event stream, the trade counter
equals the number of events processed, and the decision counter, the
fill counter and the number of latency samples in the histogram all
equal the number of non-`none` decisions produced — decisions and fills
are coupled 1:1. -/
theorem metrics_consistency (args : Args) (evs : List (ℕ × AggTrade)) :
    (runState args initState evs).metrics.trades = evs.length ∧
    (runState args initState evs).metrics.decisions
      = (signals args initState evs).countP (fun g => g.isSome) ∧
    (runState args initState evs).metrics.fills
      = (signals args initState evs).countP (fun g => g.isSome) ∧
    (runState args initState evs).metrics.lat_hist.length
      = (signals args initState evs).countP (fun g => g.isSome) := by
  have h := runAux_counts args evs initState
  simpa [initState, Metrics.init, runState, signals] using h

section QueueLemmas

/-- Best-effort sends into a bounded queue keep exactly its oldest
`cap` elements. -/
lemma foldl_trySend_take (cap : ℕ) :
    ∀ (es : List AggTrade) (q : List AggTrade), q.length ≤ cap →
      List.foldl (trySend cap) q es = (q ++ es).take cap := by
  intro es
  induction es with
  | nil =>
    intro q h
    simp [List.take_of_length_le h]
  | cons e es ih =>
    intro q h
    by_cases hlt : q.length < cap
    · have hsend : trySend cap q e = q ++ [e] := by
        simp [trySend, hlt]
      rw [List.foldl_cons, hsend, ih (q ++ [e]) (by simp; omega)]
      simp
    · have hq : q.length = cap := by omega
      have hsend : trySend cap q e = q := by
        simp [trySend, hlt]
      rw [List.foldl_cons, hsend, ih q h]
      rw [List.take_append_eq_append_take, List.take_append_eq_append_take]
      simp [hq, List.take_of_length_le]

end QueueLemmas

/-- C2: for every capacity `N ≥ 1` and every sequence of pushed prices,
the window obtained by folding `push` has length `min N (total pushes)`
(in particular at most `N`) and its contents are exactly the last
`min N (total pushes)` pushed prices in arrival order — here expressed
as the suffix `ps.drop (ps.length - N)`; strict FIFO eviction of the
oldest element.  Quantifying over all `ps` covers the window state
after every individual push. -/
theorem window_bound_and_content (n : ℕ) (hn : 1 ≤ n) (ps : List ℚ) :
    (List.foldl (pushWin n) [] ps).length = min n ps.length ∧
    List.foldl (pushWin n) [] ps = ps.drop (ps.length - n) := by
  have h := foldl_pushWin_eq_drop n ps [] (by simp)
  simp only [List.nil_append, List.length_nil, Nat.zero_add] at h
  refine ⟨?_, h⟩
  rw [h, List.length_drop]
  omega

/-- Witness for C2 at capacity 2 and pushes `[1, 2, 3]`. -/
theorem window_bound_and_content_witness :
    1 ≤ 2 ∧
    ((List.foldl (pushWin 2) [] [(1 : ℚ), 2, 3]).length
        = min 2 [(1 : ℚ), 2, 3].length ∧
      List.foldl (pushWin 2) [] [(1 : ℚ), 2, 3]
        = [(1 : ℚ), 2, 3].drop ([(1 : ℚ), 2, 3].length - 2)) :=
  ⟨by decide, window_bound_and_content 2 (by decide) [1, 2, 3]⟩

/-- C3: for every window size `N ≥ 1` and every input event sequence of
length at most `N − 1`, no event produces a non-`none` signal, the
position and the cash are unchanged from their initial zeros, and no
decision, fill or latency metric is recorded. -/
theorem no_premature_decisions (args : Args) (hn : 1 ≤ args.ma_window)
    (evs : List (ℕ × AggTrade)) (hlen : evs.length ≤ args.ma_window - 1) :
    (∀ g ∈ signals args initState evs, g = none) ∧
    (runState args initState evs).pos_qty = 0 ∧
    (runState args initState evs).cash = 0 ∧
    (runState args initState evs).metrics.decisions = 0 ∧
    (runState args initState evs).metrics.fills = 0 ∧
    (runState args initState evs).metrics.lat_hist = [] := by
  have h := runAux_quiet args evs initState (by simp [initState]; omega)
  simp only [initState, Metrics.init] at h
  exact ⟨h.2.2.2.2.2, h.1, h.2.1, h.2.2.1, h.2.2.2.1, h.2.2.2.2.1⟩

/-- Witness for C3: window size 2, a single event. -/
theorem no_premature_decisions_witness :
    1 ≤ (Args.mk 2 10).ma_window ∧
    [((0 : ℕ), mkTrade (some 5))].length ≤ (Args.mk 2 10).ma_window - 1 ∧
    ((∀ g ∈ signals (Args.mk 2 10) initState [((0 : ℕ), mkTrade (some 5))],
        g = none) ∧
      (runState (Args.mk 2 10) initState [((0 : ℕ), mkTrade (some 5))]).pos_qty
        = 0 ∧
      (runState (Args.mk 2 10) initState [((0 : ℕ), mkTrade (some 5))]).cash
        = 0 ∧
      (runState (Args.mk 2 10) initState
          [((0 : ℕ), mkTrade (some 5))]).metrics.decisions = 0 ∧
      (runState (Args.mk 2 10) initState
          [((0 : ℕ), mkTrade (some 5))]).metrics.fills = 0 ∧
      (runState (Args.mk 2 10) initState
          [((0 : ℕ), mkTrade (some 5))]).metrics.lat_hist = []) :=
  ⟨by decide, by decide,
    no_premature_decisions (Args.mk 2 10) (by decide) _ (by decide)⟩

/-- C6: for every reachable ledger state (any run of the strategy loop
from the initial state) and every price `p`, the equity computation of
the code is exactly `cash + quantity * p`. -/
theorem ledger_equity_identity (args : Args) (evs : List (ℕ × AggTrade))
    (p : ℚ) :
    equity (runState args initState evs).pos_qty
        (runState args initState evs).cash p
      = (runState args initState evs).cash
        + (runState args initState evs).pos_qty * p :=
  rfl

/-- C8: the queue has fixed capacity 4096; sends are non-blocking and a
send onto a full queue silently drops the new event.  Pushing `C + 1`
events into an empty queue with no consumer draining it retains exactly
the oldest `C` events and drops exactly one. -/
theorem backpressure_drop (es : List AggTrade) (hlen : es.length = 4096 + 1) :
    List.foldl (trySend 4096) [] es = es.take 4096 ∧
    (List.foldl (trySend 4096) [] es).length + 1 = es.length := by
  have h := foldl_trySend_take 4096 es [] (by simp)
  simp only [List.nil_append] at h
  refine ⟨h, ?_⟩
  rw [h, List.length_take]
  omega

/-- Witness for C8 at 4097 identical events. -/
theorem backpressure_drop_witness :
    (List.replicate 4097 (mkTrade (some 1))).length = 4096 + 1 ∧
    (List.foldl (trySend 4096) [] (List.replicate 4097 (mkTrade (some 1)))
        = (List.replicate 4097 (mkTrade (some 1))).take 4096 ∧
      (List.foldl (trySend 4096) []
          (List.replicate 4097 (mkTrade (some 1)))).length + 1
        = (List.replicate 4097 (mkTrade (some 1))).length) :=
  ⟨by rw [List.length_replicate], backpressure_drop _ (by rw [List.length_replicate])⟩

/-- C9: an event whose price fails to parse is processed with price 0:
the loop pushes 0 into the window, increments the trade counter, and
sets the last-price gauge to 0, instead of rejecting or dropping the
event. -/
theorem parse_fallback_zero (args : Args) (s : StratState) (now : ℕ)
    (tr : AggTrade) (hp : tr.p = none) :
    (stepFull args s now tr).1.prices = pushWin args.ma_window s.prices 0 ∧
    (stepFull args s now tr).1.metrics.trades = s.metrics.trades + 1 ∧
    (stepFull args s now tr).1.metrics.last_price = 0 := by
  have h1 := stepFull_prices args s now tr
  have h2 := stepFull_trades args s now tr
  have h3 := stepFull_last_price args s now tr
  rw [hp] at h1 h3
  simp only [Option.getD_none] at h1 h3
  exact ⟨h1, h2, h3⟩

/-- Witness for C9 at an unparseable price in the initial state. -/
theorem parse_fallback_zero_witness :
    (mkTrade none).p = none ∧
    ((stepFull (Args.mk 1 10) initState 0 (mkTrade none)).1.prices
        = pushWin (Args.mk 1 10).ma_window initState.prices 0 ∧
      (stepFull (Args.mk 1 10) initState 0 (mkTrade none)).1.metrics.trades
        = initState.metrics.trades + 1 ∧
      (stepFull (Args.mk 1 10) initState 0 (mkTrade none)).1.metrics.last_price
        = 0) :=
  ⟨rfl, parse_fallback_zero (Args.mk 1 10) initState 0 (mkTrade none) rfl⟩

/-- C10 counterexample: applying a Buy fill at price 1 to the ledger
state (quantity 1, cash 0) changes equity at price 1 from 1 to 0, so
the claim fails as stated for arbitrary ledger states. -/
theorem fill_preserves_equity_cex :
    equity (applyFill Side.buy 1 (1, 0)).1 (applyFill Side.buy 1 (1, 0)).2 1
      ≠ equity 1 0 1 := by
  norm_num [equity, applyFill]

/-- C10 amended: a Sell fill at price `p` preserves equity evaluated at
`p` for every ledger state; a Buy fill at price `p` preserves it for
every ledger state with quantity 0 — the only states in which the
engine applies a Buy. -/
theorem fill_preserves_equity (qty cash p qty2 cash2 : ℚ) (hq : qty = 0) :
    equity (applyFill Side.buy p (qty, cash)).1
        (applyFill Side.buy p (qty, cash)).2 p
      = equity qty cash p ∧
    equity (applyFill Side.sell p (qty2, cash2)).1
        (applyFill Side.sell p (qty2, cash2)).2 p
      = equity qty2 cash2 p := by
  subst hq
  constructor
  · simp [equity, applyFill]
  · simp only [equity, applyFill]
    ring

/-- Witness for C10 amended at concrete ledger states. -/
theorem fill_preserves_equity_witness :
    (0 : ℚ) = 0 ∧
    (equity (applyFill Side.buy 3 (0, 5)).1 (applyFill Side.buy 3 (0, 5)).2 3
        = equity 0 5 3 ∧
      equity (applyFill Side.sell 3 (1, 2)).1 (applyFill Side.sell 3 (1, 2)).2 3
        = equity 1 2 3) :=
  ⟨rfl, fill_preserves_equity 0 5 3 1 2 rfl⟩
